import Mathlib

/-!
Verification of the wordle-solver core: the feedback-pattern engine
(`Correctness.compute`), history matching (`Guess.matches`), candidate
pruning, the game loop (`Wordle.play`), the pattern cache, and the
scoring strategies (Unoptimised / Cutoff / Cache).

Words are fixed five-letter strings, embedded as functions `Fin 5 → Char`;
feedback patterns are `Fin 5 → Correctness`.  Frequency weights are
embedded as rationals.
-/

namespace WordleSolver


/-- The three per-position feedback outcomes (green / yellow / grey). -/
inductive Correctness where
  | Correct
  | Misplaced
  | Wrong
deriving DecidableEq, Fintype, Repr

/-- A five-letter word, as a function from position to character. -/
abbrev Word := Fin 5 → Char

/-- A five-symbol feedback pattern. -/
abbrev Pattern := Fin 5 → Correctness

/-- Build a `Word` from five characters. -/
def mkWord (a b c d e : Char) : Word := ![a, b, c, d, e]

/-- One iteration of the answer-position loop of `Correctness::compute`
(src/src/lib.rs lines 66-77): at answer position `i`, mark position `i`
Correct when the guess agrees there; otherwise mark Misplaced the first
guess position `j` holding the same letter whose own answer letter differs
and which is still unmarked. -/
def computeStep (answer guess : Word) (c : Pattern) (i : Fin 5) : Pattern :=
  if answer i = guess i then
    Function.update c i Correctness.Correct
  else
    match (List.finRange 5).find? (fun j =>
        decide (guess j = answer i) && decide (answer j ≠ answer i) &&
          decide (c j = Correctness.Wrong)) with
    | some j => Function.update c j Correctness.Misplaced
    | none => c

/-- `Correctness::compute` (src/src/lib.rs lines 59-80): fold the
answer-position loop over positions `0..5`, starting from all-Wrong. -/
def Correctness.compute (answer guess : Word) : Pattern :=
  (List.finRange 5).foldl (computeStep answer guess) (fun _ => Correctness.Wrong)

/-- A recorded observation: a guessed word plus the feedback mask it got
(struct `Guess` in src/src/lib.rs lines 102-105). -/
structure Guess where
  word : Word
  mask : Pattern

/-- `Guess::matches` (src/src/lib.rs lines 107-113): a candidate `word` is
consistent with this observation when guessing the observation's word
against `word` as hypothetical answer reproduces the recorded mask. -/
def Guess.matches (g : Guess) (word : Word) : Bool :=
  decide (Correctness.compute word g.word = g.mask)

/-! ### C2: no double counting of letters

`markCount guess c x` counts the positions whose guess letter is `x` and
which the pattern `c` marks Correct or Misplaced; `letterCount w x` counts
the occurrences of `x` in `w`. -/

/-- Number of positions with guess letter `x` marked (Correct or Misplaced). -/
def markCount (guess : Word) (c : Pattern) (x : Char) : Nat :=
  (List.finRange 5).countP (fun j => decide (guess j = x ∧ c j ≠ Correctness.Wrong))

/-- Number of occurrences of the letter `x` in the word `w`. -/
def letterCount (w : Word) (x : Char) : Nat :=
  (List.finRange 5).countP (fun i => decide (w i = x))

/-! ### The game loop (`Wordle::play`, src/src/lib.rs lines 22-45)

The loop runs turns `1..=32`; each turn asks the guesser for a word given
the history so far, stops with `some i` when the `i`-th guess equals the
answer, and otherwise appends `(guess, compute(answer, guess))` to the
history.  After 32 turns without a match it returns `none`. -/

/-- The turn loop of `Wordle::play`, with `t` turns left, current turn
number `i`, and the history accumulated so far. -/
def Wordle.playGo (answer : Word) (guesser : List Guess → Word) :
    Nat → Nat → List Guess → Option Nat
  | 0, _, _ => none
  | t + 1, i, history =>
    let g := guesser history
    if g = answer then some i
    else Wordle.playGo answer guesser t (i + 1)
      (history ++ [⟨g, Correctness.compute answer g⟩])

/-- `Wordle::play`: run up to 32 turns starting from an empty history. -/
def Wordle.play (answer : Word) (guesser : List Guess → Word) : Option Nat :=
  Wordle.playGo answer guesser 32 1 []

/-- The history the game loop has accumulated after `n` turns none of which
matched the answer. -/
def Wordle.histN (answer : Word) (guesser : List Guess → Word) : Nat → List Guess
  | 0 => []
  | n + 1 =>
    let h := Wordle.histN answer guesser n
    h ++ [⟨guesser h, Correctness.compute answer (guesser h)⟩]

/-- The `i`-th guess (1-based) the guesser produces while no earlier guess
has matched. -/
def Wordle.nthGuess (answer : Word) (guesser : List Guess → Word) (i : Nat) : Word :=
  guesser (Wordle.histN answer guesser (i - 1))

/-! ### C4 / C10: pruning and the best-candidate accumulator

The remaining set is a list of `(word, weight)` pairs.  Each `guess` call
filters it by the latest history entry
(`self.remaining.retain(|&word, _| last.matches(word))`, unoptimised.rs
lines 44-47, and the `Cow` equivalents in weight.rs / cutoff.rs); across a
game this amounts to folding the filter over the history. -/

/-- Filter the remaining set by one history entry. -/
def prune (remaining : List (Word × ℚ)) (e : Guess) : List (Word × ℚ) :=
  remaining.filter (fun c => e.matches c.1)

/-- The remaining set after a full history has been observed. -/
def remainingAfter (lexicon : List (Word × ℚ)) (history : List Guess) :
    List (Word × ℚ) :=
  history.foldl prune lexicon

/-- The best-candidate accumulator of `Unoptimised::guess` / `Cutoff::guess`
(unoptimised.rs lines 91-97, cutoff.rs lines 117-123): replace the incumbent
only on strictly larger goodness. -/
def maxPickStep (best : Option (Word × ℚ)) (c : Word × ℚ) : Option (Word × ℚ) :=
  match best with
  | some b => if c.2 > b.2 then some c else some b
  | none => some c

/-- Fold the maximising accumulator over the scored candidates; the code
ends with `best.unwrap()`, which panics exactly when this is `none`. -/
def maxPick (l : List (Word × ℚ)) : Option (Word × ℚ) :=
  l.foldl maxPickStep none

/-- The best-candidate accumulator of `Cache::guess` (cache.rs lines
250-257): replace the incumbent only on strictly smaller expected score. -/
def pickStep (best : Option (Word × ℚ)) (c : Word × ℚ) : Option (Word × ℚ) :=
  match best with
  | some b => if c.2 < b.2 then some c else some b
  | none => some c

/-- Fold the minimising accumulator over the scored candidates. -/
def pickBest (l : List (Word × ℚ)) : Option (Word × ℚ) :=
  l.foldl pickStep none

/-! ### C7: the candidate-evaluation caps

`Cutoff::guess` (cutoff.rs lines 69-70, 125-128) runs
`let stop = (remaining.len() / 3).max(16)` and after each candidate does
`i += 1; if i > stop { break; }`; `Cache::guess` (cache.rs lines 220-221,
259-262) runs `let stop = (remaining.len() / 3).max(20)` and breaks on
`i >= stop`.  The loops below return the list of candidates the body was
executed for. -/

/-- The candidates `Cutoff::guess` evaluates, given the counter value `i`
at loop entry: the body runs, then `i` increments, then `i > stop` breaks. -/
def cutoffLoop {α : Type} (stop : Nat) : List α → Nat → List α
  | [], _ => []
  | x :: xs, i => if i + 1 > stop then [x] else x :: cutoffLoop stop xs (i + 1)

/-- The candidates `Cache::guess` evaluates: the body runs, then `i`
increments, then `i >= stop` breaks. -/
def cacheLoop {α : Type} (stop : Nat) : List α → Nat → List α
  | [], _ => []
  | x :: xs, i => if i + 1 ≥ stop then [x] else x :: cacheLoop stop xs (i + 1)

/-- The candidate prefix `Cutoff::guess` evaluates in a turn. -/
def cutoffEvaluated {α : Type} (remaining : List α) : List α :=
  cutoffLoop (Nat.max (remaining.length / 3) 16) remaining 0

/-- The candidate prefix `Cache::guess` evaluates in a turn. -/
def cacheEvaluated {α : Type} (remaining : List α) : List α :=
  cacheLoop (Nat.max (remaining.length / 3) 20) remaining 0

/-! ### Pattern enumeration and the radix-3 pattern index -/

/-- `Correctness::patterns` (src/src/lib.rs lines 90-99): the Cartesian
product of the three outcomes over five slots, leftmost slot outermost. -/
def Correctness.patterns : List Pattern :=
  [Correctness.Correct, Correctness.Misplaced, Correctness.Wrong].flatMap fun a =>
  [Correctness.Correct, Correctness.Misplaced, Correctness.Wrong].flatMap fun b =>
  [Correctness.Correct, Correctness.Misplaced, Correctness.Wrong].flatMap fun c =>
  [Correctness.Correct, Correctness.Misplaced, Correctness.Wrong].flatMap fun d =>
  [Correctness.Correct, Correctness.Misplaced, Correctness.Wrong].map fun e =>
    ![a, b, c, d, e]

/-- Modelled from the spec: the radix-3 digit of one feedback symbol, in
the enumeration order `Correct, Misplaced, Wrong` used by `patterns()`.
(The source of `enumerate_mask` is not under src/; §3 of the spec fixes
only that a pattern is "enumerable as an integer in [0, 3^5) via a fixed
radix-3 encoding".) -/
def radixDigit : Correctness → Nat
  | Correctness.Correct => 0
  | Correctness.Misplaced => 1
  | Correctness.Wrong => 2

/-- Modelled from the spec: `enumerate_mask`, the fixed radix-3 encoding of
a pattern as an integer in `[0, 3^5) = [0, MAX_MASK_ENUM)`, consistent with
the fixed enumeration order of `patterns()`. -/
def enumerate_mask (p : Pattern) : Fin 243 :=
  ⟨81 * radixDigit (p 0) + 27 * radixDigit (p 1) + 9 * radixDigit (p 2) +
      3 * radixDigit (p 3) + radixDigit (p 4), by
    have h0 : radixDigit (p 0) ≤ 2 := by cases p 0 <;> decide
    have h1 : radixDigit (p 1) ≤ 2 := by cases p 1 <;> decide
    have h2 : radixDigit (p 2) ≤ 2 := by cases p 2 <;> decide
    have h3 : radixDigit (p 3) ≤ 2 := by cases p 3 <;> decide
    have h4 : radixDigit (p 4) ≤ 2 := by cases p 4 <;> decide
    omega⟩

/-! ### C5: scan-accumulated totals refine the per-pattern baseline

`Unoptimised::guess` (unoptimised.rs lines 62-87) iterates all 243 patterns
and, for each, sums the weights of remaining words that match;
`Cache::guess` (cache.rs lines 230-244) makes one linear scan over the
remaining set, adding each word's weight to the slot of its pattern index
in a 243-slot array. -/

/-- The baseline per-pattern total (`in_pattern_total` of unoptimised.rs). -/
def baselineTotal (remaining : List (Word × ℚ)) (word : Word) (p : Pattern) : ℚ :=
  remaining.foldl (fun s c => if (Guess.mk word p).matches c.1 then s + c.2 else s) 0

/-- One step of the optimised linear scan (`totals[idx] += count`). -/
def scanStep (word : Word) (totals : Fin 243 → ℚ) (c : Word × ℚ) : Fin 243 → ℚ :=
  Function.update totals (enumerate_mask (Correctness.compute c.1 word))
    (totals (enumerate_mask (Correctness.compute c.1 word)) + c.2)

/-- The 243-slot running totals accumulated by `Cache::guess`'s single
linear scan over the remaining set. -/
def scanTotals (remaining : List (Word × ℚ)) (word : Word) : Fin 243 → ℚ :=
  remaining.foldl (scanStep word) (fun _ => 0)

/-- The entropy summand for one nonzero pattern total: the code computes
`(t / R) * log2 (t / R)`; the real-valued logarithm is abstracted as `lg`. -/
def entropyTerm (lg : ℚ → ℚ) (R t : ℚ) : ℚ := (t / R) * lg (t / R)

/-- The cache strategy's information amount
(`-totals.filter(nonzero).map(term).sum()`, cache.rs lines 237-247). -/
def cacheEInfo (lg : ℚ → ℚ) (R : ℚ) (totals : Fin 243 → ℚ) : ℚ :=
  -((((List.finRange 243).map totals).filter (fun t => decide (t ≠ 0))).map
      (entropyTerm lg R)).sum

/-- The baseline goodness (`-sum` with `continue` on zero totals,
unoptimised.rs lines 81-89). -/
def unoptGoodness (lg : ℚ → ℚ) (R : ℚ) (remaining : List (Word × ℚ)) (word : Word) : ℚ :=
  -(Correctness.patterns.foldl
      (fun s p =>
        if baselineTotal remaining word p = 0 then s
        else s + entropyTerm lg R (baselineTotal remaining word p)) 0)

/-! ### C8: the Pattern Cache

The cache (cache.rs lines 9, 140-162) is a `dimension × dimension` table of
lazily-filled cells; `get_enumeration(row, answer, guess, guess_idx)` reads
`row[guess_idx]`, initialising it on first access with
`cachable_enumeration(guess, &answer) = enumerate_mask(compute(guess, answer))`.
A cell is modelled as `Option (Fin 243)`, `none` meaning uninitialised. -/

/-- The compute-cache table: cell `(row, cell)` of the `row`-th word's
cache line. -/
abbrev CacheTable (n : Nat) := Fin n → Fin n → Option (Fin 243)

/-- `cachable_enumeration` (cache.rs lines 146-148). -/
def cachable_enumeration (answer guess : Word) : Fin 243 :=
  enumerate_mask (Correctness.compute answer guess)

/-- `get_enumeration` (cache.rs lines 160-162): read the cell, computing
and storing `cachable_enumeration(guess, answer)` on first access.  Returns
the value together with the (possibly extended) table. -/
def get_enumeration {n : Nat} (cache : CacheTable n) (answer guess : Word)
    (rowIdx cellIdx : Fin n) : Fin 243 × CacheTable n :=
  match cache rowIdx cellIdx with
  | some v => (v, cache)
  | none =>
    (cachable_enumeration guess answer,
      fun g c =>
        if g = rowIdx ∧ c = cellIdx then some (cachable_enumeration guess answer)
        else cache g c)

/-- Every populated cell `(g, c)` holds the pattern index of
`compute(word c, word g)`: candidate word as hypothetical answer, row word
as guess. -/
def CacheConsistent {n : Nat} (wordAt : Fin n → Word) (cache : CacheTable n) : Prop :=
  ∀ (g c : Fin n) (v : Fin 243), cache g c = some v →
    v = enumerate_mask (Correctness.compute (wordAt c) (wordAt g))

/-! ### C6: the expected-score strategy

`est_steps_left` (cache.rs line 61) and the per-candidate expected score
(cache.rs lines 246-249).  The real-valued natural logarithm of the code is
abstracted as a parameter `ln`; the regression constants are the exact
decimal literals of the source. -/

/-- `est_steps_left(entropy) = ln(entropy * 3.870 + 3.679)`. -/
def est_steps_left (ln : ℚ → ℚ) (entropy : ℚ) : ℚ :=
  ln (entropy * 3.870 + 3.679)

/-- The per-candidate expected score of `Cache::guess` (cache.rs lines
246-249): `score` is `history.len()`, the number of completed turns. -/
def e_score (ln : ℚ → ℚ) (score p_word remaining_entropy e_info : ℚ) : ℚ :=
  p_word * (score + 1) + (1 - p_word) * (score + est_steps_left ln (remaining_entropy - e_info))

/-! ## Lemmas and theorems -/

/-- C1: `Correctness::compute` satisfies the spec's duplicate-letter test
vectors: `compute("aabbb","aaccc") = [Correct,Correct,Wrong,Wrong,Wrong]`,
`compute("aabbb","ccaac") = [Wrong,Wrong,Misplaced,Misplaced,Wrong]`, and
`compute("baccc","aaddd") = [Wrong,Correct,Wrong,Wrong,Wrong]`. -/
theorem compute_duplicate_letter_vectors :
    Correctness.compute (mkWord 'a' 'a' 'b' 'b' 'b') (mkWord 'a' 'a' 'c' 'c' 'c') =
      ![Correctness.Correct, Correctness.Correct, Correctness.Wrong,
        Correctness.Wrong, Correctness.Wrong] ∧
    Correctness.compute (mkWord 'a' 'a' 'b' 'b' 'b') (mkWord 'c' 'c' 'a' 'a' 'c') =
      ![Correctness.Wrong, Correctness.Wrong, Correctness.Misplaced,
        Correctness.Misplaced, Correctness.Wrong] ∧
    Correctness.compute (mkWord 'b' 'a' 'c' 'c' 'c') (mkWord 'a' 'a' 'd' 'd' 'd') =
      ![Correctness.Wrong, Correctness.Correct, Correctness.Wrong,
        Correctness.Wrong, Correctness.Wrong] := by
  refine ⟨?_, ?_, ?_⟩ <;> decide

/-- C3: an observation `(word = A, mask = P)` is consistent with candidate
`B` exactly when `compute(B, A) = P`. -/
theorem matches_iff_compute (A B : Word) (P : Pattern) :
    (Guess.mk A P).matches B = true ↔ Correctness.compute B A = P := by
  simp [Guess.matches]

lemma countP_eq_of_agree {α : Type} (p q : α → Bool) :
    ∀ l : List α, (∀ k ∈ l, p k = q k) → l.countP p = l.countP q := by
  intro l
  induction l with
  | nil => intro _; rfl
  | cons a t ih =>
    intro h
    rw [List.countP_cons, List.countP_cons, ih (fun k hk => h k (List.mem_cons_of_mem a hk)),
      h a (List.mem_cons_self a t)]

lemma countP_le_countP_add_count {α : Type} [DecidableEq α] (p q : α → Bool) (j : α) :
    ∀ l : List α, (∀ k ∈ l, k ≠ j → q k = p k) →
      l.countP q ≤ l.countP p + l.count j := by
  intro l
  induction l with
  | nil => intro _; simp
  | cons a t ih =>
    intro h
    have ht : ∀ k ∈ t, k ≠ j → q k = p k :=
      fun k hk => h k (List.mem_cons_of_mem a hk)
    rw [List.countP_cons, List.countP_cons, List.count_cons]
    by_cases haj : a = j
    · subst haj
      have := ih ht
      have hq : (if q a then 1 else 0) ≤ 1 := by split <;> omega
      simp only [beq_self_eq_true, if_true]
      omega
    · rw [h a (List.mem_cons_self a t) haj]
      have := ih ht
      have : (if a == j then 1 else 0) = 0 := by
        simp [beq_iff_eq, haj]
      omega

lemma count_finRange (j : Fin 5) : (List.finRange 5).count j = 1 :=
  List.count_eq_one_of_mem (List.nodup_finRange 5) (List.mem_finRange j)

/-- Each answer-position iteration adds at most one Correct/Misplaced mark,
and it carries the current answer letter. -/
lemma markCount_computeStep_le (answer guess : Word) (c : Pattern) (i : Fin 5) (x : Char) :
    markCount guess (computeStep answer guess c i) x ≤
      markCount guess c x + (if answer i = x then 1 else 0) := by
  unfold computeStep markCount
  by_cases hcg : answer i = guess i
  · rw [if_pos hcg]
    by_cases hx : answer i = x
    · rw [if_pos hx]
      calc (List.finRange 5).countP
            (fun j => decide (guess j = x ∧ Function.update c i Correctness.Correct j ≠ Correctness.Wrong))
          ≤ (List.finRange 5).countP
              (fun j => decide (guess j = x ∧ c j ≠ Correctness.Wrong)) +
              (List.finRange 5).count i := by
            apply countP_le_countP_add_count
            intro k _ hk
            simp [Function.update_noteq hk]
        _ = _ := by rw [count_finRange]
    · rw [if_neg hx, Nat.add_zero]
      have := countP_eq_of_agree
        (fun j => decide (guess j = x ∧ Function.update c i Correctness.Correct j ≠ Correctness.Wrong))
        (fun j => decide (guess j = x ∧ c j ≠ Correctness.Wrong))
        (List.finRange 5) ?_
      · omega
      · intro k _
        by_cases hk : k = i
        · subst hk
          have : guess k ≠ x := by rw [← hcg]; exact hx
          simp [this]
        · simp [Function.update_noteq hk]
  · rw [if_neg hcg]
    cases hfind : (List.finRange 5).find? (fun j =>
        decide (guess j = answer i) && decide (answer j ≠ answer i) &&
          decide (c j = Correctness.Wrong)) with
    | none =>
      dsimp only
      split <;> omega
    | some j =>
      have hj := List.find?_some hfind
      simp only [Bool.and_eq_true, decide_eq_true_eq] at hj
      obtain ⟨⟨hgj, -⟩, -⟩ := hj
      dsimp only
      by_cases hx : answer i = x
      · rw [if_pos hx]
        calc (List.finRange 5).countP
              (fun k => decide (guess k = x ∧ Function.update c j Correctness.Misplaced k ≠ Correctness.Wrong))
            ≤ (List.finRange 5).countP
                (fun k => decide (guess k = x ∧ c k ≠ Correctness.Wrong)) +
                (List.finRange 5).count j := by
              apply countP_le_countP_add_count
              intro k _ hk
              simp [Function.update_noteq hk]
          _ = _ := by rw [count_finRange]
      · rw [if_neg hx, Nat.add_zero]
        have := countP_eq_of_agree
          (fun k => decide (guess k = x ∧ Function.update c j Correctness.Misplaced k ≠ Correctness.Wrong))
          (fun k => decide (guess k = x ∧ c k ≠ Correctness.Wrong))
          (List.finRange 5) ?_
        · omega
        · intro k _
          by_cases hk : k = j
          · subst hk
            have : guess k ≠ x := by rw [hgj]; exact hx
            simp [this]
          · simp [Function.update_noteq hk]

lemma markCount_foldl_le (answer guess : Word) (x : Char) :
    ∀ (l : List (Fin 5)) (c : Pattern),
      markCount guess (l.foldl (computeStep answer guess) c) x ≤
        markCount guess c x + l.countP (fun i => decide (answer i = x)) := by
  intro l
  induction l with
  | nil => intro c; simp
  | cons i t ih =>
    intro c
    rw [List.foldl_cons, List.countP_cons]
    calc markCount guess (t.foldl (computeStep answer guess) (computeStep answer guess c i)) x
        ≤ markCount guess (computeStep answer guess c i) x +
            t.countP (fun i => decide (answer i = x)) := ih _
      _ ≤ (markCount guess c x + (if answer i = x then 1 else 0)) +
            t.countP (fun i => decide (answer i = x)) := by
          have := markCount_computeStep_le answer guess c i x
          omega
      _ ≤ _ := by
          by_cases hx : answer i = x
          · simp [hx]; omega
          · simp [hx]

/-- C2: in the pattern `compute(answer, guess)`, the number of positions
marked Correct or Misplaced whose guess letter is `x` never exceeds the
number of occurrences of `x` in the answer. -/
theorem compute_mark_count_le_answer_count (answer guess : Word) (x : Char) :
    markCount guess (Correctness.compute answer guess) x ≤ letterCount answer x := by
  have h := markCount_foldl_le answer guess x (List.finRange 5) (fun _ => Correctness.Wrong)
  have h0 : markCount guess (fun _ => Correctness.Wrong) x = 0 := by
    unfold markCount
    rw [List.countP_eq_zero]
    intro j _
    simp
  unfold Correctness.compute letterCount
  omega

lemma playGo_eq_some_iff (answer : Word) (guesser : List Guess → Word) :
    ∀ (t i : Nat), 1 ≤ i → ∀ m : Nat,
      (Wordle.playGo answer guesser t i (Wordle.histN answer guesser (i - 1)) = some m ↔
        (i ≤ m ∧ m < i + t ∧ Wordle.nthGuess answer guesser m = answer ∧
          ∀ j, i ≤ j → j < m → Wordle.nthGuess answer guesser j ≠ answer)) := by
  intro t
  induction t with
  | zero =>
    intro i _ m
    simp only [Wordle.playGo]
    constructor
    · intro h; cases h
    · intro ⟨h1, h2, _⟩; omega
  | succ t ih =>
    intro i hi m
    have hg : guesser (Wordle.histN answer guesser (i - 1)) =
        Wordle.nthGuess answer guesser i := rfl
    rw [Wordle.playGo]
    simp only [hg]
    by_cases hcase : Wordle.nthGuess answer guesser i = answer
    · rw [if_pos hcase]
      constructor
      · intro h
        have hm : m = i := by cases h; rfl
        subst hm
        exact ⟨le_refl _, by omega, hcase, fun j h1 h2 => by omega⟩
      · intro ⟨h1, _, hm, hall⟩
        have : m = i := by
          by_contra hne
          exact hall i (le_refl _) (by omega) hcase
        subst this
        rfl
    · rw [if_neg hcase]
      have hhist : Wordle.histN answer guesser (i - 1) ++
          [⟨Wordle.nthGuess answer guesser i,
            Correctness.compute answer (Wordle.nthGuess answer guesser i)⟩] =
          Wordle.histN answer guesser ((i + 1) - 1) := by
        have : (i + 1) - 1 = (i - 1) + 1 := by omega
        rw [this, Wordle.histN]
        rfl
      rw [hhist]
      rw [ih (i + 1) (by omega) m]
      constructor
      · intro ⟨h1, h2, hm, hall⟩
        refine ⟨by omega, by omega, hm, ?_⟩
        intro j hj1 hj2
        rcases Nat.eq_or_lt_of_le hj1 with heq | hlt
        · rw [← heq]; exact hcase
        · exact hall j hlt hj2
      · intro ⟨h1, h2, hm, hall⟩
        have : i + 1 ≤ m := by
          rcases Nat.eq_or_lt_of_le h1 with heq | hlt
          · exact absurd (heq ▸ hm) hcase
          · omega
        exact ⟨this, by omega, hm, fun j hj1 hj2 => hall j (by omega) hj2⟩

/-- C9: `Wordle::play` returns `some i` exactly when the `i`-th guess is the
answer and no earlier guess was (so `1 ≤ i ≤ 32`), and returns `none`
exactly when none of the 32 allowed guesses matches. -/
theorem wordle_play_characterisation (answer : Word) (guesser : List Guess → Word) :
    (∀ i, Wordle.play answer guesser = some i ↔
      (1 ≤ i ∧ i ≤ 32 ∧ Wordle.nthGuess answer guesser i = answer ∧
        ∀ j, 1 ≤ j → j < i → Wordle.nthGuess answer guesser j ≠ answer)) ∧
    (Wordle.play answer guesser = none ↔
      ∀ j, 1 ≤ j → j ≤ 32 → Wordle.nthGuess answer guesser j ≠ answer) := by
  have hsome : ∀ m, Wordle.play answer guesser = some m ↔
      (1 ≤ m ∧ m ≤ 32 ∧ Wordle.nthGuess answer guesser m = answer ∧
        ∀ j, 1 ≤ j → j < m → Wordle.nthGuess answer guesser j ≠ answer) := by
    intro m
    have h := playGo_eq_some_iff answer guesser 32 1 (le_refl 1) m
    have h0 : Wordle.histN answer guesser (1 - 1) = [] := rfl
    rw [h0] at h
    unfold Wordle.play
    rw [h]
    constructor
    · intro ⟨h1, h2, h3, h4⟩; exact ⟨h1, by omega, h3, h4⟩
    · intro ⟨h1, h2, h3, h4⟩; exact ⟨h1, by omega, h3, h4⟩
  refine ⟨hsome, ?_⟩
  constructor
  · intro hnone j hj1 hj2 hja
    classical
    have hex : ∃ k, 1 ≤ k ∧ k ≤ 32 ∧ Wordle.nthGuess answer guesser k = answer :=
      ⟨j, hj1, hj2, hja⟩
    obtain ⟨k, hk1, hk2, hk3⟩ := hex
    -- take the least turn whose guess matches the answer
    have : ∃ k0, (1 ≤ k0 ∧ k0 ≤ 32 ∧ Wordle.nthGuess answer guesser k0 = answer) ∧
        ∀ j, 1 ≤ j → j < k0 → Wordle.nthGuess answer guesser j ≠ answer := by
      induction k using Nat.strong_induction_on with
      | _ k ihk =>
        by_cases hmin : ∀ j, 1 ≤ j → j < k → Wordle.nthGuess answer guesser j ≠ answer
        · exact ⟨k, ⟨hk1, hk2, hk3⟩, hmin⟩
        · push_neg at hmin
          obtain ⟨j0, hj01, hj02, hj03⟩ := hmin
          exact ihk j0 hj02 hj01 (by omega) hj03
    obtain ⟨k0, ⟨hk01, hk02, hk03⟩, hk0min⟩ := this
    have : Wordle.play answer guesser = some k0 :=
      (hsome k0).mpr ⟨hk01, hk02, hk03, hk0min⟩
    rw [hnone] at this
    cases this
  · intro hall
    cases hplay : Wordle.play answer guesser with
    | none => rfl
    | some m =>
      obtain ⟨h1, h2, h3, _⟩ := (hsome m).mp hplay
      exact absurd h3 (hall m h1 h2)

/-- Closed witness for C9: a guesser that immediately proposes the true
answer wins in exactly one turn. -/
theorem wordle_play_characterisation_witness :
    Wordle.play (mkWord 'r' 'i' 'g' 'h' 't') (fun _ => mkWord 'r' 'i' 'g' 'h' 't') = some 1 :=
  ((wordle_play_characterisation (mkWord 'r' 'i' 'g' 'h' 't')
      (fun _ => mkWord 'r' 'i' 'g' 'h' 't')).1 1).mpr
    ⟨le_refl 1, by omega, rfl, fun j h1 h2 => absurd (Nat.lt_of_lt_of_le h2 h1) (Nat.lt_irrefl j)⟩

/-- An entry whose mask was produced by `compute(answer, w)` always matches
the true answer. -/
lemma matches_answer_of_mask (answer w : Word) :
    (Guess.mk w (Correctness.compute answer w)).matches answer = true := by
  simp [Guess.matches]

lemma mem_prune_answer (remaining : List (Word × ℚ)) (answer w : Word) (q : ℚ)
    (h : (answer, q) ∈ remaining) :
    (answer, q) ∈ prune remaining ⟨w, Correctness.compute answer w⟩ := by
  unfold prune
  rw [List.mem_filter]
  exact ⟨h, matches_answer_of_mask answer w⟩

lemma mem_remainingAfter_answer (answer : Word) :
    ∀ (history : List Guess) (lexicon : List (Word × ℚ)) (q : ℚ),
      (∀ e ∈ history, e.mask = Correctness.compute answer e.word) →
      (answer, q) ∈ lexicon → (answer, q) ∈ remainingAfter lexicon history := by
  intro history
  induction history with
  | nil => intro lexicon q _ h; exact h
  | cons e t ih =>
    intro lexicon q hmask h
    have he : e.mask = Correctness.compute answer e.word :=
      hmask e (List.mem_cons_self e t)
    have hstep : (answer, q) ∈ prune lexicon e := by
      have := mem_prune_answer lexicon answer e.word q h
      have hrw : (Guess.mk e.word (Correctness.compute answer e.word)) = e := by
        cases e; simp at he ⊢; exact he.symm
      rw [hrw] at this
      exact this
    exact ih (prune lexicon e) q
      (fun f hf => hmask f (List.mem_cons_of_mem e hf)) hstep

/-- C4: pruning by any history entry yields a sublist (so the remaining
set never grows), `Wordle::play` only pushes entries whose mask is
`compute(answer, word)`, and pruning by such an entry never removes the
true answer. -/
theorem prune_monotone_keeps_answer (remaining : List (Word × ℚ)) (answer w : Word)
    (guesser : List Guess → Word) :
    (∀ e : Guess, (prune remaining e).Sublist remaining ∧
      (prune remaining e).length ≤ remaining.length) ∧
    (∀ n, ∀ e ∈ Wordle.histN answer guesser n,
      e.mask = Correctness.compute answer e.word) ∧
    ((∃ q : ℚ, (answer, q) ∈ remaining) →
      ∃ q : ℚ, (answer, q) ∈ prune remaining ⟨w, Correctness.compute answer w⟩) := by
  refine ⟨?_, ?_, ?_⟩
  · intro e
    have hs : (prune remaining e).Sublist remaining := List.filter_sublist remaining
    exact ⟨hs, hs.length_le⟩
  · intro n
    induction n with
    | zero => intro e he; cases he
    | succ n ihn =>
      intro e he
      rw [Wordle.histN] at he
      rcases List.mem_append.mp he with h | h
      · exact ihn e h
      · rcases List.mem_singleton.mp h with rfl
        rfl
  · intro ⟨q, hq⟩
    exact ⟨q, mem_prune_answer remaining answer w q hq⟩

/-- Closed witness for C4: with the one-word lexicon `{right}`, pruning by
the entry `(wrong, compute(right, wrong))` keeps `right`. -/
theorem prune_monotone_keeps_answer_witness :
    ∃ q : ℚ, (mkWord 'r' 'i' 'g' 'h' 't', q) ∈
      prune [(mkWord 'r' 'i' 'g' 'h' 't', (1 : ℚ))]
        ⟨mkWord 'w' 'r' 'o' 'n' 'g',
          Correctness.compute (mkWord 'r' 'i' 'g' 'h' 't') (mkWord 'w' 'r' 'o' 'n' 'g')⟩ :=
  (prune_monotone_keeps_answer [(mkWord 'r' 'i' 'g' 'h' 't', (1 : ℚ))]
    (mkWord 'r' 'i' 'g' 'h' 't') (mkWord 'w' 'r' 'o' 'n' 'g') (fun _ => mkWord 'r' 'i' 'g' 'h' 't')).2.2
    ⟨1, by decide⟩

lemma foldl_step_isSome {f : Option (Word × ℚ) → Word × ℚ → Option (Word × ℚ)}
    (hf : ∀ b c, ∃ d, f (some b) c = some d) :
    ∀ (l : List (Word × ℚ)) (b : Word × ℚ), ∃ d, l.foldl f (some b) = some d := by
  intro l
  induction l with
  | nil => intro b; exact ⟨b, rfl⟩
  | cons c t ih =>
    intro b
    rw [List.foldl_cons]
    obtain ⟨d, hd⟩ := hf b c
    rw [hd]
    exact ih d

lemma maxPick_ne_none (l : List (Word × ℚ)) (hl : l ≠ []) : maxPick l ≠ none := by
  cases l with
  | nil => exact absurd rfl hl
  | cons c t =>
    unfold maxPick
    rw [List.foldl_cons]
    have hstep : (maxPickStep none c) = some c := rfl
    rw [hstep]
    obtain ⟨d, hd⟩ := foldl_step_isSome
      (f := maxPickStep) (fun b c => by
        by_cases h : c.2 > b.2
        · exact ⟨c, by simp [maxPickStep, h]⟩
        · exact ⟨b, by simp [maxPickStep, h]⟩) t c
    rw [hd]
    exact Option.noConfusion

lemma pickBest_ne_none (l : List (Word × ℚ)) (hl : l ≠ []) : pickBest l ≠ none := by
  cases l with
  | nil => exact absurd rfl hl
  | cons c t =>
    unfold pickBest
    rw [List.foldl_cons]
    have hstep : (pickStep none c) = some c := rfl
    rw [hstep]
    obtain ⟨d, hd⟩ := foldl_step_isSome
      (f := pickStep) (fun b c => by
        by_cases h : c.2 < b.2
        · exact ⟨c, by simp [pickStep, h]⟩
        · exact ⟨b, by simp [pickStep, h]⟩) t c
    rw [hd]
    exact Option.noConfusion

/-- C10: on an empty remaining set the best-candidate accumulators end as
`none` (so `best.unwrap()` panics); but when the answer is in the lexicon
and every history entry carries the mask the game loop computed against
that answer, the pruned remaining set still contains the answer, is
non-empty, and the accumulators return a candidate. -/
theorem guess_unwrap_safety (lexicon : List (Word × ℚ)) (history : List Guess)
    (answer : Word) (scoreF : Word × ℚ → Word × ℚ) :
    (maxPick [] = none ∧ pickBest [] = none) ∧
    ((∀ e ∈ history, e.mask = Correctness.compute answer e.word) →
      (∃ q : ℚ, (answer, q) ∈ lexicon) →
      (∃ q : ℚ, (answer, q) ∈ remainingAfter lexicon history) ∧
        remainingAfter lexicon history ≠ [] ∧
        maxPick ((remainingAfter lexicon history).map scoreF) ≠ none ∧
        pickBest ((remainingAfter lexicon history).map scoreF) ≠ none) := by
  refine ⟨⟨rfl, rfl⟩, ?_⟩
  intro hmask ⟨q, hq⟩
  have hmem := mem_remainingAfter_answer answer history lexicon q hmask hq
  have hne : remainingAfter lexicon history ≠ [] := by
    intro h
    rw [h] at hmem
    cases hmem
  have hmapne : (remainingAfter lexicon history).map scoreF ≠ [] := by
    intro h
    exact hne (List.map_eq_nil_iff.mp h)
  exact ⟨⟨q, hmem⟩, hne, maxPick_ne_none _ hmapne, pickBest_ne_none _ hmapne⟩

/-- Closed witness for C10: with lexicon `{right, wrong}` and the history
entry recorded after guessing `wrong` against answer `right`, the pruned
set still contains `right` and both accumulators return a candidate. -/
theorem guess_unwrap_safety_witness :
    (∃ q : ℚ, (mkWord 'r' 'i' 'g' 'h' 't', q) ∈
        remainingAfter [(mkWord 'r' 'i' 'g' 'h' 't', (1 : ℚ)), (mkWord 'w' 'r' 'o' 'n' 'g', (1 : ℚ))]
          [⟨mkWord 'w' 'r' 'o' 'n' 'g',
            Correctness.compute (mkWord 'r' 'i' 'g' 'h' 't') (mkWord 'w' 'r' 'o' 'n' 'g')⟩]) ∧
      remainingAfter [(mkWord 'r' 'i' 'g' 'h' 't', (1 : ℚ)), (mkWord 'w' 'r' 'o' 'n' 'g', (1 : ℚ))]
          [⟨mkWord 'w' 'r' 'o' 'n' 'g',
            Correctness.compute (mkWord 'r' 'i' 'g' 'h' 't') (mkWord 'w' 'r' 'o' 'n' 'g')⟩] ≠ [] ∧
      maxPick ((remainingAfter [(mkWord 'r' 'i' 'g' 'h' 't', (1 : ℚ)), (mkWord 'w' 'r' 'o' 'n' 'g', (1 : ℚ))]
          [⟨mkWord 'w' 'r' 'o' 'n' 'g',
            Correctness.compute (mkWord 'r' 'i' 'g' 'h' 't') (mkWord 'w' 'r' 'o' 'n' 'g')⟩]).map id) ≠ none ∧
      pickBest ((remainingAfter [(mkWord 'r' 'i' 'g' 'h' 't', (1 : ℚ)), (mkWord 'w' 'r' 'o' 'n' 'g', (1 : ℚ))]
          [⟨mkWord 'w' 'r' 'o' 'n' 'g',
            Correctness.compute (mkWord 'r' 'i' 'g' 'h' 't') (mkWord 'w' 'r' 'o' 'n' 'g')⟩]).map id) ≠ none :=
  (guess_unwrap_safety
      [(mkWord 'r' 'i' 'g' 'h' 't', (1 : ℚ)), (mkWord 'w' 'r' 'o' 'n' 'g', (1 : ℚ))]
      [⟨mkWord 'w' 'r' 'o' 'n' 'g',
        Correctness.compute (mkWord 'r' 'i' 'g' 'h' 't') (mkWord 'w' 'r' 'o' 'n' 'g')⟩]
      (mkWord 'r' 'i' 'g' 'h' 't') id).2
    (by
      intro e he
      rcases List.mem_singleton.mp he with rfl
      rfl)
    ⟨1, by decide⟩

lemma cutoffLoop_eq_take {α : Type} (stop : Nat) :
    ∀ (l : List α) (i : Nat), i ≤ stop → cutoffLoop stop l i = l.take (stop + 1 - i) := by
  intro l
  induction l with
  | nil => intro i _; simp [cutoffLoop]
  | cons x xs ih =>
    intro i hi
    rw [cutoffLoop]
    by_cases h : i + 1 > stop
    · rw [if_pos h]
      have : stop + 1 - i = 1 := by omega
      rw [this]
      rfl
    · rw [if_neg h]
      rw [ih (i + 1) (by omega)]
      have h2 : stop + 1 - i = (stop + 1 - (i + 1)) + 1 := by omega
      rw [h2]
      rfl

lemma cacheLoop_eq_take {α : Type} (stop : Nat) :
    ∀ (l : List α) (i : Nat), i < stop → cacheLoop stop l i = l.take (stop - i) := by
  intro l
  induction l with
  | nil => intro i _; simp [cacheLoop]
  | cons x xs ih =>
    intro i hi
    rw [cacheLoop]
    by_cases h : i + 1 ≥ stop
    · rw [if_pos h]
      have : stop - i = 1 := by omega
      rw [this]
      rfl
    · rw [if_neg h]
      rw [ih (i + 1) (by omega)]
      have h2 : stop - i = (stop - (i + 1)) + 1 := by omega
      rw [h2]
      rfl

/-- Counterexample to C7 as stated: with 17 remaining candidates, the cap
claimed for `Cutoff` is `max(17/3, 16) = 16`, but the loop's post-increment
`i > stop` break evaluates all 17 candidates — strictly more than the cap. -/
theorem cutoff_cap_counterexample :
    Nat.max (17 / 3) 16 < (cutoffEvaluated (List.range 17)).length := by
  decide

/-- C7 amended: `Cutoff::guess` evaluates exactly the first
`max(len/3, 16) + 1` remaining candidates (one more than the cap, because
its break fires only once the counter strictly exceeds the cap), while
`Cache::guess` evaluates exactly the first `max(len/3, 20)`; both evaluate
a prefix of the remaining list in its iteration (frequency-descending)
order and stop early. -/
theorem candidate_cap_amended {α : Type} (remaining : List α) :
    cutoffEvaluated remaining = remaining.take (Nat.max (remaining.length / 3) 16 + 1) ∧
    (cutoffEvaluated remaining).length ≤ Nat.max (remaining.length / 3) 16 + 1 ∧
    cacheEvaluated remaining = remaining.take (Nat.max (remaining.length / 3) 20) ∧
    (cacheEvaluated remaining).length ≤ Nat.max (remaining.length / 3) 20 := by
  have h1 : cutoffEvaluated remaining =
      remaining.take (Nat.max (remaining.length / 3) 16 + 1) := by
    unfold cutoffEvaluated
    rw [cutoffLoop_eq_take _ remaining 0 (Nat.zero_le _)]
    simp
  have h2 : cacheEvaluated remaining =
      remaining.take (Nat.max (remaining.length / 3) 20) := by
    unfold cacheEvaluated
    rw [cacheLoop_eq_take _ remaining 0
      (Nat.lt_of_lt_of_le (by norm_num) (Nat.le_max_right _ 20))]
    simp
  refine ⟨h1, ?_, h2, ?_⟩
  · rw [h1]
    exact List.length_take_le _ _
  · rw [h2]
    exact List.length_take_le _ _

lemma radixDigit_le_two (c : Correctness) : radixDigit c ≤ 2 := by
  cases c <;> decide

lemma radixDigit_injective (a b : Correctness) (h : radixDigit a = radixDigit b) :
    a = b := by
  cases a <;> cases b <;> first | rfl | exact absurd h (by decide)

lemma enumerate_mask_injective (p q : Pattern) (h : enumerate_mask p = enumerate_mask q) :
    p = q := by
  have hv := congrArg Fin.val h
  simp only [enumerate_mask] at hv
  have hp0 := radixDigit_le_two (p 0)
  have hp1 := radixDigit_le_two (p 1)
  have hp2 := radixDigit_le_two (p 2)
  have hp3 := radixDigit_le_two (p 3)
  have hp4 := radixDigit_le_two (p 4)
  have hq0 := radixDigit_le_two (q 0)
  have hq1 := radixDigit_le_two (q 1)
  have hq2 := radixDigit_le_two (q 2)
  have hq3 := radixDigit_le_two (q 3)
  have hq4 := radixDigit_le_two (q 4)
  have e0 : radixDigit (p 0) = radixDigit (q 0) := by omega
  have e1 : radixDigit (p 1) = radixDigit (q 1) := by omega
  have e2 : radixDigit (p 2) = radixDigit (q 2) := by omega
  have e3 : radixDigit (p 3) = radixDigit (q 3) := by omega
  have e4 : radixDigit (p 4) = radixDigit (q 4) := by omega
  funext i
  fin_cases i
  · exact radixDigit_injective _ _ e0
  · exact radixDigit_injective _ _ e1
  · exact radixDigit_injective _ _ e2
  · exact radixDigit_injective _ _ e3
  · exact radixDigit_injective _ _ e4

set_option maxRecDepth 4000 in
/-- The chosen radix-3 index enumerates `patterns()` in order. -/
lemma patterns_map_enumerate :
    Correctness.patterns.map enumerate_mask = List.finRange 243 := by
  decide

lemma scan_foldl_bucket (word : Word) (p : Pattern) :
    ∀ (remaining : List (Word × ℚ)) (t : Fin 243 → ℚ),
      (remaining.foldl (scanStep word) t) (enumerate_mask p) =
        remaining.foldl
          (fun s c => if (Guess.mk word p).matches c.1 then s + c.2 else s)
          (t (enumerate_mask p)) := by
  intro remaining
  induction remaining with
  | nil => intro t; rfl
  | cons c r ih =>
    intro t
    rw [List.foldl_cons, List.foldl_cons, ih]
    congr 1
    by_cases h : Correctness.compute c.1 word = p
    · have hmatch : (Guess.mk word p).matches c.1 = true := by
        simp [Guess.matches, h]
      rw [hmatch, if_pos rfl]
      unfold scanStep
      rw [h, Function.update_same]
    · have hmatch : (Guess.mk word p).matches c.1 = false := by
        simp [Guess.matches, h]
      have hne : enumerate_mask (Correctness.compute c.1 word) ≠ enumerate_mask p :=
        fun heq => h (enumerate_mask_injective _ _ heq)
      rw [hmatch, if_neg (by simp)]
      unfold scanStep
      exact Function.update_noteq (Ne.symm hne) _ _

lemma skip_zero_foldl (F : Pattern → ℚ) (T : ℚ → ℚ) :
    ∀ (l : List Pattern) (a : ℚ),
      l.foldl (fun s p => if F p = 0 then s else s + T (F p)) a =
        a + (((l.map F).filter (fun t => decide (t ≠ 0))).map T).sum := by
  intro l
  induction l with
  | nil => intro a; simp
  | cons p t ih =>
    intro a
    rw [List.foldl_cons]
    by_cases h : F p = 0
    · rw [if_pos h, ih]
      simp [h]
    · rw [if_neg h, ih]
      simp only [List.map_cons, List.filter_cons]
      rw [if_pos (by simp [h])]
      rw [List.map_cons, List.sum_cons]
      ring

/-- C5: bucket for bucket, the single-scan running totals equal the
iterate-all-243-patterns baseline totals, and consequently the two
computations produce the same entropy value for the candidate. -/
theorem scan_totals_refine_baseline (lg : ℚ → ℚ) (R : ℚ)
    (remaining : List (Word × ℚ)) (word : Word) :
    (∀ p : Pattern, scanTotals remaining word (enumerate_mask p) =
        baselineTotal remaining word p) ∧
    cacheEInfo lg R (scanTotals remaining word) = unoptGoodness lg R remaining word := by
  have hbucket : ∀ p : Pattern, scanTotals remaining word (enumerate_mask p) =
      baselineTotal remaining word p := by
    intro p
    unfold scanTotals baselineTotal
    exact scan_foldl_bucket word p remaining (fun _ => 0)
  refine ⟨hbucket, ?_⟩
  unfold cacheEInfo unoptGoodness
  rw [skip_zero_foldl (baselineTotal remaining word) (entropyTerm lg R)
    Correctness.patterns 0, zero_add]
  have hmap : Correctness.patterns.map (scanTotals remaining word ∘ enumerate_mask) =
      Correctness.patterns.map (baselineTotal remaining word) := by
    apply List.map_congr_left
    intro p _
    exact hbucket p
  rw [← patterns_map_enumerate, List.map_map, hmap]

/-- C8: reading cell `(rowIdx, cellIdx)` of a consistent cache with the
words of those ranks returns exactly the radix-3 pattern index of
`compute(candidate, guess)`, leaves the cache consistent, and a repeated
access of the same cell returns the same value without further change. -/
theorem cache_cell_consistent {n : Nat} (wordAt : Fin n → Word) (cache : CacheTable n)
    (rowIdx cellIdx : Fin n) (hcons : CacheConsistent wordAt cache) :
    (get_enumeration cache (wordAt rowIdx) (wordAt cellIdx) rowIdx cellIdx).1 =
      enumerate_mask (Correctness.compute (wordAt cellIdx) (wordAt rowIdx)) ∧
    CacheConsistent wordAt
      (get_enumeration cache (wordAt rowIdx) (wordAt cellIdx) rowIdx cellIdx).2 ∧
    get_enumeration
        (get_enumeration cache (wordAt rowIdx) (wordAt cellIdx) rowIdx cellIdx).2
        (wordAt rowIdx) (wordAt cellIdx) rowIdx cellIdx =
      ((get_enumeration cache (wordAt rowIdx) (wordAt cellIdx) rowIdx cellIdx).1,
        (get_enumeration cache (wordAt rowIdx) (wordAt cellIdx) rowIdx cellIdx).2) := by
  cases h : cache rowIdx cellIdx with
  | some v =>
    have hget : get_enumeration cache (wordAt rowIdx) (wordAt cellIdx) rowIdx cellIdx =
        (v, cache) := by
      unfold get_enumeration
      rw [h]
    rw [hget]
    dsimp only
    refine ⟨hcons rowIdx cellIdx v h, hcons, ?_⟩
    unfold get_enumeration
    rw [h]
  | none =>
    have hget : get_enumeration cache (wordAt rowIdx) (wordAt cellIdx) rowIdx cellIdx =
        (cachable_enumeration (wordAt cellIdx) (wordAt rowIdx),
          fun g c =>
            if g = rowIdx ∧ c = cellIdx then
              some (cachable_enumeration (wordAt cellIdx) (wordAt rowIdx))
            else cache g c) := by
      unfold get_enumeration
      rw [h]
    rw [hget]
    dsimp only
    refine ⟨rfl, ?_, ?_⟩
    · intro g c v hv
      dsimp only at hv
      by_cases hgc : g = rowIdx ∧ c = cellIdx
      · rw [if_pos hgc] at hv
        obtain ⟨rfl, rfl⟩ := hgc
        cases hv
        rfl
      · rw [if_neg hgc] at hv
        exact hcons g c v hv
    · unfold get_enumeration
      have hcell : (fun g c =>
          if g = rowIdx ∧ c = cellIdx then
            some (cachable_enumeration (wordAt cellIdx) (wordAt rowIdx))
          else cache g c) rowIdx cellIdx =
          some (cachable_enumeration (wordAt cellIdx) (wordAt rowIdx)) := by
        simp
      rw [hcell]

/-- Closed witness for C8: a fresh (all-`none`, vacuously consistent)
two-word cache returns the freshly computed pattern index for cell `(0, 1)`
and stays consistent. -/
theorem cache_cell_consistent_witness :
    (get_enumeration (fun _ _ => none : CacheTable 2)
        ((![mkWord 'r' 'i' 'g' 'h' 't', mkWord 'w' 'r' 'o' 'n' 'g']) 0)
        ((![mkWord 'r' 'i' 'g' 'h' 't', mkWord 'w' 'r' 'o' 'n' 'g']) 1) 0 1).1 =
      enumerate_mask (Correctness.compute
        ((![mkWord 'r' 'i' 'g' 'h' 't', mkWord 'w' 'r' 'o' 'n' 'g']) 1)
        ((![mkWord 'r' 'i' 'g' 'h' 't', mkWord 'w' 'r' 'o' 'n' 'g']) 0)) ∧
    CacheConsistent (![mkWord 'r' 'i' 'g' 'h' 't', mkWord 'w' 'r' 'o' 'n' 'g'])
      (get_enumeration (fun _ _ => none : CacheTable 2)
        ((![mkWord 'r' 'i' 'g' 'h' 't', mkWord 'w' 'r' 'o' 'n' 'g']) 0)
        ((![mkWord 'r' 'i' 'g' 'h' 't', mkWord 'w' 'r' 'o' 'n' 'g']) 1) 0 1).2 ∧
    get_enumeration
        (get_enumeration (fun _ _ => none : CacheTable 2)
          ((![mkWord 'r' 'i' 'g' 'h' 't', mkWord 'w' 'r' 'o' 'n' 'g']) 0)
          ((![mkWord 'r' 'i' 'g' 'h' 't', mkWord 'w' 'r' 'o' 'n' 'g']) 1) 0 1).2
        ((![mkWord 'r' 'i' 'g' 'h' 't', mkWord 'w' 'r' 'o' 'n' 'g']) 0)
        ((![mkWord 'r' 'i' 'g' 'h' 't', mkWord 'w' 'r' 'o' 'n' 'g']) 1) 0 1 =
      ((get_enumeration (fun _ _ => none : CacheTable 2)
          ((![mkWord 'r' 'i' 'g' 'h' 't', mkWord 'w' 'r' 'o' 'n' 'g']) 0)
          ((![mkWord 'r' 'i' 'g' 'h' 't', mkWord 'w' 'r' 'o' 'n' 'g']) 1) 0 1).1,
        (get_enumeration (fun _ _ => none : CacheTable 2)
          ((![mkWord 'r' 'i' 'g' 'h' 't', mkWord 'w' 'r' 'o' 'n' 'g']) 0)
          ((![mkWord 'r' 'i' 'g' 'h' 't', mkWord 'w' 'r' 'o' 'n' 'g']) 1) 0 1).2) :=
  cache_cell_consistent (![mkWord 'r' 'i' 'g' 'h' 't', mkWord 'w' 'r' 'o' 'n' 'g'])
    (fun _ _ => none) 0 1 (fun _ _ _ hv => Option.noConfusion hv)

lemma pickBest_go (l : List (Word × ℚ)) :
    ∀ c : Word × ℚ, ∃ d : Word × ℚ,
      l.foldl pickStep (some c) = some d ∧ d.2 ≤ c.2 ∧ (∀ e ∈ l, d.2 ≤ e.2) ∧
      (d = c ∨ (∃ (i : Nat) (hi : i < l.length), d = l.get ⟨i, hi⟩ ∧ d.2 < c.2 ∧
        ∀ (j : Nat) (hj : j < l.length), j < i → d.2 < (l.get ⟨j, hj⟩).2)) := by
  induction l with
  | nil =>
    intro c
    refine ⟨c, rfl, le_refl _, ?_, Or.inl rfl⟩
    intro e he
    cases he
  | cons e t ih =>
    intro c
    rw [List.foldl_cons]
    by_cases h : e.2 < c.2
    · have hstep : pickStep (some c) e = some e := by simp [pickStep, h]
      rw [hstep]
      obtain ⟨d, hfold, hde, hall, hbr⟩ := ih e
      refine ⟨d, hfold, le_of_lt (lt_of_le_of_lt hde h), ?_, ?_⟩
      · intro f hf
        rcases List.mem_cons.mp hf with rfl | hf
        · exact hde
        · exact hall f hf
      · rcases hbr with rfl | ⟨i, hi, hdi, hlt, hstrict⟩
        · refine Or.inr ⟨0, by simp, rfl, h, ?_⟩
          intro j hj hj0
          omega
        · refine Or.inr ⟨i + 1, by simpa using Nat.succ_lt_succ hi, by simpa using hdi,
            lt_trans hlt h, ?_⟩
          intro j hj hji
          cases j with
          | zero => exact hlt
          | succ j =>
            have hjt : j < t.length := by simpa using hj
            have := hstrict j hjt (by omega)
            simpa using this
    · have hstep : pickStep (some c) e = some c := by simp [pickStep, h]
      rw [hstep]
      obtain ⟨d, hfold, hdc, hall, hbr⟩ := ih c
      refine ⟨d, hfold, hdc, ?_, ?_⟩
      · intro f hf
        rcases List.mem_cons.mp hf with rfl | hf
        · exact le_trans hdc (le_of_not_lt h)
        · exact hall f hf
      · rcases hbr with rfl | ⟨i, hi, hdi, hlt, hstrict⟩
        · exact Or.inl rfl
        · refine Or.inr ⟨i + 1, by simpa using Nat.succ_lt_succ hi, by simpa using hdi,
            hlt, ?_⟩
          intro j hj hji
          cases j with
          | zero => exact lt_of_lt_of_le hlt (le_of_not_lt h)
          | succ j =>
            have hjt : j < t.length := by simpa using hj
            have := hstrict j hjt (by omega)
            simpa using this

/-- C6: `est_steps_left` is the fitted regression
`ln(entropy·3.870 + 3.679)`, the per-candidate expected score is
`P(word)·(turn+1) + (1−P(word))·(turn + est_steps_left(remaining_entropy −
info_gain))`, and the minimising accumulator returns the first candidate
attaining the minimal expected score among those evaluated (a later
candidate wins only on a strictly smaller score). -/
theorem cache_escore_formula_and_min (ln : ℚ → ℚ) (l : List (Word × ℚ))
    (hl : l ≠ []) :
    (∀ score p_word H g, e_score ln score p_word H g =
      p_word * (score + 1) + (1 - p_word) * (score + ln ((H - g) * 3.870 + 3.679))) ∧
    ∃ (i : Nat) (hi : i < l.length),
      pickBest l = some (l.get ⟨i, hi⟩) ∧
      (∀ (j : Nat) (hj : j < l.length), (l.get ⟨i, hi⟩).2 ≤ (l.get ⟨j, hj⟩).2) ∧
      (∀ (j : Nat) (hj : j < l.length), j < i → (l.get ⟨i, hi⟩).2 < (l.get ⟨j, hj⟩).2) := by
  refine ⟨fun score p_word H g => rfl, ?_⟩
  cases l with
  | nil => exact absurd rfl hl
  | cons c t =>
    unfold pickBest
    rw [List.foldl_cons]
    have hstep : pickStep none c = some c := rfl
    rw [hstep]
    obtain ⟨d, hfold, hdc, hall, hbr⟩ := pickBest_go t c
    rcases hbr with rfl | ⟨i, hi, hdi, hlt, hstrict⟩
    · refine ⟨0, by simp, ?_, ?_, ?_⟩
      · rw [hfold]
        rfl
      · intro j hj
        cases j with
        | zero => exact le_refl _
        | succ j =>
          have hjt : j < t.length := by simpa using hj
          have hmem := hall (t.get ⟨j, hjt⟩) (t.get_mem _ _)
          simpa using hmem
      · intro j hj hj0
        omega
    · have hsucc : i + 1 < (c :: t).length := by simpa using Nat.succ_lt_succ hi
      have hgetd : (c :: t).get ⟨i + 1, hsucc⟩ = d := by
        simp only [List.get_cons_succ]
        exact hdi.symm
      refine ⟨i + 1, hsucc, ?_, ?_, ?_⟩
      · rw [hfold, hgetd]
      · intro j hj
        rw [hgetd]
        cases j with
        | zero => exact hdc
        | succ j =>
          have hjt : j < t.length := by simpa using hj
          have hmem := hall (t.get ⟨j, hjt⟩) (t.get_mem _ _)
          simpa using hmem
      · intro j hj hji
        rw [hgetd]
        cases j with
        | zero => exact hlt
        | succ j =>
          have hjt : j < t.length := by simpa using hj
          have := hstrict j hjt (by omega)
          simpa using this

/-- Closed witness for C6: on the two-candidate list with scores 5 and 3
the accumulator returns the second candidate (the unique minimum). -/
theorem cache_escore_formula_and_min_witness :
    ∃ (i : Nat) (hi : i <
        [(mkWord 'r' 'i' 'g' 'h' 't', (5 : ℚ)), (mkWord 'w' 'r' 'o' 'n' 'g', (3 : ℚ))].length),
      pickBest [(mkWord 'r' 'i' 'g' 'h' 't', (5 : ℚ)), (mkWord 'w' 'r' 'o' 'n' 'g', (3 : ℚ))] =
        some ([(mkWord 'r' 'i' 'g' 'h' 't', (5 : ℚ)), (mkWord 'w' 'r' 'o' 'n' 'g', (3 : ℚ))].get ⟨i, hi⟩) ∧
      (∀ (j : Nat) (hj : j <
          [(mkWord 'r' 'i' 'g' 'h' 't', (5 : ℚ)), (mkWord 'w' 'r' 'o' 'n' 'g', (3 : ℚ))].length),
        ([(mkWord 'r' 'i' 'g' 'h' 't', (5 : ℚ)), (mkWord 'w' 'r' 'o' 'n' 'g', (3 : ℚ))].get ⟨i, hi⟩).2 ≤
          ([(mkWord 'r' 'i' 'g' 'h' 't', (5 : ℚ)), (mkWord 'w' 'r' 'o' 'n' 'g', (3 : ℚ))].get ⟨j, hj⟩).2) ∧
      (∀ (j : Nat) (hj : j <
          [(mkWord 'r' 'i' 'g' 'h' 't', (5 : ℚ)), (mkWord 'w' 'r' 'o' 'n' 'g', (3 : ℚ))].length),
        j < i →
        ([(mkWord 'r' 'i' 'g' 'h' 't', (5 : ℚ)), (mkWord 'w' 'r' 'o' 'n' 'g', (3 : ℚ))].get ⟨i, hi⟩).2 <
          ([(mkWord 'r' 'i' 'g' 'h' 't', (5 : ℚ)), (mkWord 'w' 'r' 'o' 'n' 'g', (3 : ℚ))].get ⟨j, hj⟩).2) :=
  (cache_escore_formula_and_min id
    [(mkWord 'r' 'i' 'g' 'h' 't', (5 : ℚ)), (mkWord 'w' 'r' 'o' 'n' 'g', (3 : ℚ))]
    (by simp)).2

end WordleSolver
